import Mathlib

/-!
Shallow embedding of the Takuzu/Binairo solver repository.

The grid is a bit-packed natural number: cell with linear index `i` is bit
`i`.  A second word `actions` marks the empty cells (bit set = cell empty).
The side length `N` is a compile-time constant in the C sources (6 or 8
depending on the variant); here it is passed as an explicit parameter.
All machine words are modelled as `ℕ`; the C shifts and bit operations on
64-bit words never overflow for `N ≤ 8`, except in `load`'s running
`bit_mask`, where the overflow is modelled explicitly with `% 2 ^ 64`.
-/

namespace Takuzu

/-- Embedding of `getRow` (takuzu.c): `(grid >> index * N) & (1 << N) - 1`. -/
def getRow (N grid index : ℕ) : ℕ :=
  (grid >>> (index * N)) &&& ((1 <<< N) - 1)

/-- Loop body of `getCol`: `n` remaining iterations, shifting the grid right
by `N` each step and accumulating `col = col << 1 | grid & 1`. -/
def getColAux (N : ℕ) : ℕ → ℕ → ℕ → ℕ
  | 0, _, col => col
  | n + 1, grid, col => getColAux N n (grid >>> N) ((col <<< 1) ||| (grid &&& 1))

/-- Embedding of `getCol` (takuzu.c): aligns column `index` with bit 0 and
runs the accumulation loop `N` times. -/
def getCol (N grid index : ℕ) : ℕ :=
  getColAux N N (grid >>> index) 0

/-- Loop of `isBalanced` (takuzu.c): scans `n` cells; when the action bit is
clear the cell is filled and the matching counter is incremented. -/
def balCountAux : ℕ → ℕ → ℕ → ℕ × ℕ → ℕ × ℕ
  | 0, _, _, c => c
  | n + 1, v, m, c =>
    balCountAux n (v >>> 1) (m >>> 1)
      (if m &&& 1 = 0 then (if v &&& 1 = 1 then (c.1, c.2 + 1) else (c.1 + 1, c.2)) else c)

/-- Embedding of `isBalanced` (takuzu.c): true iff neither the filled-0 count
nor the filled-1 count exceeds `N / 2`. -/
def isBalanced (N v m : ℕ) : Bool :=
  let c := balCountAux N v m (0, 0)
  decide (c.1 ≤ N / 2 ∧ c.2 ≤ N / 2)

/-- Loop of `hasTriplets` (takuzu.c): `n` remaining windows; a window whose
three action bits are clear and whose `(value + 1) & 7 ≤ 1` is a triplet. -/
def hasTripletsAux : ℕ → ℕ → ℕ → Bool
  | 0, _, _ => false
  | n + 1, v, m =>
    if m &&& 7 = 0 ∧ (v + 1) &&& 7 ≤ 1 then true
    else hasTripletsAux n (v >>> 1) (m >>> 1)

/-- Embedding of `hasTriplets` (takuzu.c): the loop runs for `i < N - 2`. -/
def hasTriplets (N v m : ℕ) : Bool :=
  hasTripletsAux (N - 2) v m

/-- Loop of `isValid` (takuzu.c): index `i` runs while `k` counts down from
`N`; `rows`/`cols` accumulate the fully filled slices already seen.  The C
code appends the row to its accumulator before scanning the column
accumulator; as the column scan does not read the row accumulator, both
appends are equivalently performed after the two duplicate scans. -/
def isValidAux (N g a : ℕ) : ℕ → ℕ → List ℕ → List ℕ → Bool
  | 0, _, _, _ => true
  | k + 1, i, rows, cols =>
    if isBalanced N (getRow N g i) (getRow N a i) = false ∨
       hasTriplets N (getRow N g i) (getRow N a i) = true ∨
       isBalanced N (getCol N g i) (getCol N a i) = false ∨
       hasTriplets N (getCol N g i) (getCol N a i) = true then
      false
    else if getRow N a i = 0 ∧ getRow N g i ∈ rows then false
    else if getCol N a i = 0 ∧ getCol N g i ∈ cols then false
    else
      isValidAux N g a k (i + 1)
        (if getRow N a i = 0 then rows ++ [getRow N g i] else rows)
        (if getCol N a i = 0 then cols ++ [getCol N g i] else cols)

/-- Embedding of `isValid` (takuzu.c): scans indices `0..N-1`. -/
def isValid (N g a : ℕ) : Bool :=
  isValidAux N g a N 0 [] []

/-- The C `solve` loop `for (i = 0; i < N*N; i++) if ((actions >> i) & 1)`
whose body always returns: it acts on the first set action bit only. -/
def findAction (N a : ℕ) : Option ℕ :=
  (List.range (N * N)).find? (fun i => a.testBit i)

/-- Fuel-indexed embedding of `solve` (unnamed/part_002).  The outer `none`
means the fuel ran out (never happens for fuel `> ` the number of empty
cells, see `solve_terminates`); `some none` is the C `return false` (no
completion); `some (some (g, a))` is the C `return true` with the grid and
action words that reach the final fall-through (the solved state that the
program prints).  At the first empty index the code tries value 1
(`grid | 1 << i`), then value 0 (`grid` unchanged), recursing only when
`isValid` accepts the candidate. -/
def solveF (N : ℕ) : ℕ → ℕ → ℕ → Option (Option (ℕ × ℕ))
  | 0, _, _ => none
  | f + 1, g, a =>
    match findAction N a with
    | none => some (some (g, a))
    | some i =>
      let g1 := g ||| (1 <<< i)
      let a1 := a ^^^ (1 <<< i)
      match (if isValid N g1 a1 = true then solveF N f g1 a1 else some none) with
      | none => none
      | some (some s) => some (some s)
      | some none =>
        if isValid N g a1 = true then solveF N f g a1 else some none

/-- Embedding of `solve` (unnamed/part_002): the recursion depth is bounded
by the number of empty cells `≤ N * N`, so fuel `N * N + 1` always
suffices (proved in `solve_terminates`). -/
def solve (N g a : ℕ) : Option (ℕ × ℕ) :=
  (solveF N (N * N + 1) g a).getD none

/-- Clears bit `i` of `g` (used by the reference solvers below when they set
a candidate cell to value 0, as the spec words describe). -/
def clearBit (g i : ℕ) : ℕ :=
  if g.testBit i then g - 2 ^ i else g

/-- Reference solver following the words of the claim: at the lowest empty
index, candidate value 0 is tried before candidate value 1, each candidate
state has the empty bit cleared and the value bit set accordingly, the
recursion happens only when `isValid` holds, and the first solution found
is propagated immediately. -/
def solveClaimF (N : ℕ) : ℕ → ℕ → ℕ → Option (Option (ℕ × ℕ))
  | 0, _, _ => none
  | f + 1, g, a =>
    match findAction N a with
    | none => some (some (g, a))
    | some i =>
      let g0 := clearBit g i
      let a1 := a ^^^ (1 <<< i)
      match (if isValid N g0 a1 = true then solveClaimF N f g0 a1 else some none) with
      | none => none
      | some (some s) => some (some s)
      | some none =>
        if isValid N (g ||| (1 <<< i)) a1 = true then
          solveClaimF N f (g ||| (1 <<< i)) a1
        else some none

/-- The claim's reference solver with the claimed fuel bound. -/
def solveClaim (N g a : ℕ) : Option (ℕ × ℕ) :=
  (solveClaimF N (N * N + 1) g a).getD none

/-- Reference solver following the amended claim: identical to
`solveClaimF` except that candidate value 1 is tried before candidate
value 0, matching the source. -/
def solveAmendedF (N : ℕ) : ℕ → ℕ → ℕ → Option (Option (ℕ × ℕ))
  | 0, _, _ => none
  | f + 1, g, a =>
    match findAction N a with
    | none => some (some (g, a))
    | some i =>
      let g1 := g ||| (1 <<< i)
      let a1 := a ^^^ (1 <<< i)
      match (if isValid N g1 a1 = true then solveAmendedF N f g1 a1 else some none) with
      | none => none
      | some (some s) => some (some s)
      | some none =>
        if isValid N (clearBit g i) a1 = true then
          solveAmendedF N f (clearBit g i) a1
        else some none

/-- The amended claim's reference solver with the claimed fuel bound. -/
def solveAmended (N g a : ℕ) : Option (ℕ × ℕ) :=
  (solveAmendedF N (N * N + 1) g a).getD none

/-- Outcome of `load` (unnamed/part_002): success, an invalid character
(reported with the offending character), or an invalid puzzle length. -/
inductive LoadResult where
  | ok : LoadResult
  | invalidChar : Char → LoadResult
  | invalidLength : LoadResult
deriving DecidableEq, Repr

/-- Loop of `load` (unnamed/part_002): walks the string with a running
`bit_mask` (a 64-bit word, so the shift wraps modulo `2 ^ 64`), writing the
grid and action updates for each `'0'`/`'1'` cell as it goes; after the loop
the mask must equal one of the four hard-coded constants, else the length is
rejected. -/
def loadGo : List Char → ℕ → ℕ → ℕ → LoadResult × ℕ × ℕ
  | [], mask, g, a =>
    (if mask = 16 ∨ mask = 65536 ∨ mask = 68719476736 ∨ mask = 18446744073709551615 then
      LoadResult.ok else LoadResult.invalidLength, g, a)
  | c :: cs, mask, g, a =>
    if c ≠ '1' ∧ c ≠ '0' ∧ c ≠ ' ' then (LoadResult.invalidChar c, g, a)
    else if c = ' ' then loadGo cs (mask * 2 % 2 ^ 64) g a
    else loadGo cs (mask * 2 % 2 ^ 64) (if c = '1' then g ||| mask else g) (a ^^^ mask)

/-- Embedding of `load` (unnamed/part_002) acting on the caller's `grid` and
`actions` words; the initial `bit_mask` is 1. -/
def load (s : List Char) (g a : ℕ) : LoadResult × ℕ × ℕ :=
  loadGo s 1 g a

/-- Number of empty cells of the grid: set action bits at indices `< N * N`. -/
def emptyCount (N a : ℕ) : ℕ :=
  ((Finset.range (N * N)).filter (fun i => a.testBit i)).card

/-! ### Helper lemmas -/

lemma shiftRight_one_testBit (x i : ℕ) : (x >>> 1).testBit i = x.testBit (i + 1) := by
  rw [Nat.testBit_shiftRight, Nat.add_comm]

lemma countP_range_succ_shift (n v m : ℕ) (p : Bool → Bool → Bool) :
    (List.range (n + 1)).countP (fun i => p (m.testBit i) (v.testBit i)) =
      ((List.range n).countP (fun i => p ((m >>> 1).testBit i) ((v >>> 1).testBit i)) +
        if p (m.testBit 0) (v.testBit 0) then 1 else 0) := by
  rw [List.range_succ_eq_map, List.countP_cons, List.countP_map]
  congr 1
  refine List.countP_congr (fun i _ => ?_)
  simp [Function.comp, shiftRight_one_testBit, Nat.add_comm 1]

lemma balCountAux_eq (n : ℕ) : ∀ v m c, balCountAux n v m c =
    (c.1 + (List.range n).countP (fun i => !m.testBit i && !v.testBit i),
     c.2 + (List.range n).countP (fun i => !m.testBit i && v.testBit i)) := by
  induction n with
  | zero => intro v m c; simp [balCountAux]
  | succ n ih =>
    intro v m c
    rw [balCountAux, ih]
    rw [countP_range_succ_shift n v m (fun a b => !a && !b),
      countP_range_succ_shift n v m (fun a b => !a && b)]
    rcases Nat.mod_two_eq_zero_or_one m with hm | hm <;>
      rcases Nat.mod_two_eq_zero_or_one v with hv | hv <;>
      simp [Nat.and_one_is_mod, hm, hv] <;> omega

lemma land_seven_eq_mod (x : ℕ) : x &&& 7 = x % 8 := by
  have h : (7 : ℕ) = 2 ^ 3 - 1 := by norm_num
  have h8 : (8 : ℕ) = 2 ^ 3 := by norm_num
  rw [h, h8, Nat.and_pow_two_sub_one_eq_mod]

lemma mod_eight_bits (x : ℕ) :
    (x % 8 = 0 ↔ x.testBit 0 = false ∧ x.testBit 1 = false ∧ x.testBit 2 = false) ∧
    ((x + 1) % 8 ≤ 1 ↔ (x.testBit 0 = x.testBit 1 ∧ x.testBit 1 = x.testBit 2)) := by
  simp only [Nat.testBit_to_div_mod, decide_eq_false_iff_not, decide_eq_decide]
  norm_num
  omega

lemma shiftRight_one_shiftRight (m i : ℕ) : (m >>> 1) >>> i = m >>> (i + 1) := by
  rw [Nat.add_comm, ← Nat.shiftRight_add]

lemma hasTripletsAux_iff (k : ℕ) : ∀ v m, hasTripletsAux k v m = true ↔
    ∃ i < k, (m >>> i) &&& 7 = 0 ∧ ((v >>> i) + 1) &&& 7 ≤ 1 := by
  induction k with
  | zero => intro v m; simp [hasTripletsAux]
  | succ k ih =>
    intro v m
    rw [hasTripletsAux]
    by_cases h : m &&& 7 = 0 ∧ (v + 1) &&& 7 ≤ 1
    · rw [if_pos h]
      constructor
      · intro _
        exact ⟨0, Nat.succ_pos k, by simpa using h⟩
      · intro _
        rfl
    · rw [if_neg h, ih]
      constructor
      · rintro ⟨i, hi, hw⟩
        rw [shiftRight_one_shiftRight m i, shiftRight_one_shiftRight v i] at hw
        exact ⟨i + 1, by omega, hw⟩
      · rintro ⟨i, hi, hw⟩
        cases i with
        | zero => exact absurd (by simpa using hw) h
        | succ i =>
          rw [← shiftRight_one_shiftRight m i, ← shiftRight_one_shiftRight v i] at hw
          exact ⟨i, by omega, hw⟩

lemma shiftRight_testBit_add (x i d : ℕ) : (x >>> i).testBit d = x.testBit (i + d) :=
  Nat.testBit_shiftRight x

/-- The claim C5's counting formulation of a balanced slice:
at most `N / 2` filled zeros and at most `N / 2` filled ones. -/
theorem isBalanced_iff_counts (N v m : ℕ) :
    isBalanced N v m = true ↔
      (List.range N).countP (fun i => !m.testBit i && !v.testBit i) ≤ N / 2 ∧
      (List.range N).countP (fun i => !m.testBit i && v.testBit i) ≤ N / 2 := by
  rw [isBalanced, balCountAux_eq]
  simp

/-- The claim C6's window formulation of the triplet test: some window of
three consecutive positions is fully filled with three equal values; a
window with any empty position never triggers it. -/
theorem hasTriplets_iff_window (N v m : ℕ) :
    hasTriplets N v m = true ↔
      ∃ i, i + 2 < N ∧
        (m.testBit i = false ∧ m.testBit (i + 1) = false ∧ m.testBit (i + 2) = false) ∧
        (v.testBit i = v.testBit (i + 1) ∧ v.testBit (i + 1) = v.testBit (i + 2)) := by
  rw [hasTriplets, hasTripletsAux_iff]
  constructor
  · rintro ⟨i, hi, hm, hv⟩
    rw [land_seven_eq_mod] at hm hv
    refine ⟨i, by omega, ?_, ?_⟩
    · have := (mod_eight_bits (m >>> i)).1.mp hm
      simpa [shiftRight_testBit_add, Nat.add_assoc] using this
    · have := (mod_eight_bits (v >>> i)).2.mp hv
      simpa [shiftRight_testBit_add, Nat.add_assoc] using this
  · rintro ⟨i, hi, hm, hv⟩
    refine ⟨i, by omega, ?_, ?_⟩
    · rw [land_seven_eq_mod]
      refine (mod_eight_bits (m >>> i)).1.mpr ?_
      simpa [shiftRight_testBit_add, Nat.add_assoc] using hm
    · rw [land_seven_eq_mod]
      refine (mod_eight_bits (v >>> i)).2.mpr ?_
      simpa [shiftRight_testBit_add, Nat.add_assoc] using hv

lemma one_testBit (i : ℕ) : (1 : ℕ).testBit i = decide (0 = i) := by
  have h : (1 : ℕ) = 2 ^ 0 := rfl
  rw [h, Nat.testBit_two_pow]

lemma getColAux_testBit (N : ℕ) : ∀ n g col k, (getColAux N n g col).testBit k =
    if k < n then g.testBit ((n - 1 - k) * N) else col.testBit (k - n) := by
  intro n
  induction n with
  | zero => intro g col k; simp [getColAux]
  | succ n ih =>
    intro g col k
    rw [getColAux, ih]
    rcases Nat.lt_trichotomy k n with hk | hk | hk
    · rw [if_pos hk, if_pos (by omega)]
      rw [Nat.testBit_shiftRight]
      congr 1
      have h1 : n - 1 - k + 1 = n - k := by omega
      have h2 : n + 1 - 1 - k = n - k := by omega
      rw [h2, ← h1, Nat.succ_mul]
      omega
    · subst hk
      rw [if_neg (by omega), if_pos (by omega), Nat.sub_self]
      have h2 : k + 1 - 1 - k = 0 := by omega
      rw [h2, Nat.zero_mul]
      simp [Nat.testBit_or, Nat.testBit_shiftLeft, Nat.testBit_and, one_testBit]
    · rw [if_neg (by omega), if_neg (by omega)]
      simp only [Nat.testBit_or, Nat.testBit_shiftLeft, Nat.testBit_and, one_testBit]
      have h1 : decide (1 ≤ k - n) = true := by simp only [decide_eq_true_eq]; omega
      have h0 : decide (0 = k - n) = false := by simp only [decide_eq_false_iff_not]; omega
      rw [h1, h0]
      have h3 : k - n - 1 = k - (n + 1) := by omega
      simp only [Bool.true_and, Bool.and_false, Bool.or_false, h3]

/-- The amended claim C4: row extraction is least-significant-first (cell `k`
of row `i` is grid bit `i * N + k` and sits at result bit `k`), while column
extraction is most-significant-first (result bit `k` holds the grid bit
`j + (N - 1 - k) * N`), i.e. the two slice orders are mutually reversed. -/
theorem extract_row_col_bits (N g i j k : ℕ) (hk : k < N) :
    ((getRow N g i).testBit k = g.testBit (i * N + k)) ∧
    ((getCol N g j).testBit k = g.testBit (j + (N - 1 - k) * N)) := by
  constructor
  · rw [getRow, Nat.testBit_and, Nat.testBit_shiftRight, Nat.one_shiftLeft,
      Nat.testBit_two_pow_sub_one]
    simp [hk]
  · rw [getCol, getColAux_testBit, if_pos hk, Nat.testBit_shiftRight]

/-- The claim C4 as stated is false: with `N = 8` (takuzu.c) and grid `1`,
cell `k = 0` of column `j = 0` is grid bit `0`, which is set, yet bit `0` of
the extracted column is clear — `getCol` packs the column in the reverse
order of `getRow`. -/
theorem extract_col_claim_counterexample :
    ¬ ((getCol 8 1 0).testBit 0 = (1 : ℕ).testBit (0 + 0 * 8)) := by decide

/-- Witness for `extract_row_col_bits` at `N = 8`, grid `1`, row 0, column 0,
cell 0. -/
theorem extract_row_col_bits_witness :
    ((getRow 8 1 0).testBit 0 = (1 : ℕ).testBit (0 * 8 + 0)) ∧
    ((getCol 8 1 0).testBit 0 = (1 : ℕ).testBit (0 + (8 - 1 - 0) * 8)) :=
  extract_row_col_bits 8 1 0 0 0 (by decide)

lemma loadGo_fst_of_valid : ∀ cs : List Char, ∀ m g a : ℕ, m < 2 ^ 64 →
    (∀ c ∈ cs, c = '0' ∨ c = '1' ∨ c = ' ') →
    (loadGo cs m g a).1 =
      if m * 2 ^ cs.length % 2 ^ 64 = 16 ∨ m * 2 ^ cs.length % 2 ^ 64 = 65536 ∨
         m * 2 ^ cs.length % 2 ^ 64 = 68719476736 ∨
         m * 2 ^ cs.length % 2 ^ 64 = 18446744073709551615 then
        LoadResult.ok else LoadResult.invalidLength := by
  intro cs
  induction cs with
  | nil =>
    intro m g a hm _
    simp only [loadGo, List.length_nil, pow_zero, Nat.mul_one, Nat.mod_eq_of_lt hm]
  | cons c cs ih =>
    intro m g a hm hv
    have hc : c = '0' ∨ c = '1' ∨ c = ' ' := hv c (List.mem_cons_self c cs)
    have hcs : ∀ x ∈ cs, x = '0' ∨ x = '1' ∨ x = ' ' :=
      fun x hx => hv x (List.mem_cons_of_mem c hx)
    have hnot : ¬ (c ≠ '1' ∧ c ≠ '0' ∧ c ≠ ' ') := by
      rcases hc with h | h | h <;> subst h <;> simp
    have hm2 : m * 2 % 2 ^ 64 < 2 ^ 64 := Nat.mod_lt _ (by positivity)
    have hmask : ∀ L : ℕ, (m * 2 % 2 ^ 64) * 2 ^ L % 2 ^ 64 = m * 2 ^ (L + 1) % 2 ^ 64 := by
      intro L
      rw [Nat.mod_mul_mod, Nat.mul_assoc, ← Nat.pow_succ']
    rw [loadGo, if_neg hnot]
    by_cases hsp : c = ' '
    · rw [if_pos hsp, ih _ _ _ hm2 hcs]
      simp only [List.length_cons, hmask]
    · rw [if_neg hsp, ih _ _ _ hm2 hcs]
      simp only [List.length_cons, hmask]

lemma two_pow_mod_lengths (L : ℕ) :
    (2 ^ L % 2 ^ 64 = 16 ∨ 2 ^ L % 2 ^ 64 = 65536 ∨ 2 ^ L % 2 ^ 64 = 68719476736 ∨
      2 ^ L % 2 ^ 64 = 18446744073709551615) ↔ (L = 4 ∨ L = 16 ∨ L = 36) := by
  constructor
  · intro h
    by_cases hL : L < 64
    · rw [Nat.mod_eq_of_lt (Nat.pow_lt_pow_right (by norm_num) hL)] at h
      rcases h with h | h | h | h
      · exact Or.inl (Nat.pow_right_injective (by norm_num)
          (h.trans (by norm_num : (16 : ℕ) = 2 ^ 4)))
      · exact Or.inr (Or.inl (Nat.pow_right_injective (by norm_num)
          (h.trans (by norm_num : (65536 : ℕ) = 2 ^ 16))))
      · exact Or.inr (Or.inr (Nat.pow_right_injective (by norm_num)
          (h.trans (by norm_num : (68719476736 : ℕ) = 2 ^ 36))))
      · exfalso
        cases L with
        | zero => norm_num at h
        | succ n =>
          have hdvd : (2 : ℕ) ∣ 2 ^ (n + 1) := dvd_pow_self 2 (Nat.succ_ne_zero n)
          rw [h] at hdvd
          norm_num at hdvd
    · exfalso
      have hdvd : (2 : ℕ) ^ 64 ∣ 2 ^ L := pow_dvd_pow 2 (by omega)
      have h0 : 2 ^ L % 2 ^ 64 = 0 := Nat.mod_eq_zero_of_dvd hdvd
      rw [h0] at h
      norm_num at h
  · rintro (h | h | h) <;> subst h <;> norm_num

/-- The amended claim C3: over the valid alphabet, `load` fails with
`InvalidLength` exactly when the length is not 4, 16 or 36.  The 2×2 length
4 is accepted (the code's comment lists 2x2 as valid), and the 8×8 length 64
is rejected: the final `bit_mask` comparison uses `2 ^ 64 - 1` while the
left-shifted mask wraps to `0`.  A 15-character valid string is rejected. -/
theorem load_invalid_length_iff (cs : List Char) (g a : ℕ)
    (h : ∀ c ∈ cs, c = '0' ∨ c = '1' ∨ c = ' ') :
    (load cs g a).1 = LoadResult.invalidLength ↔
      ¬ (cs.length = 4 ∨ cs.length = 16 ∨ cs.length = 36) := by
  rw [load, loadGo_fst_of_valid cs 1 g a (by norm_num) h, Nat.one_mul]
  rw [if_congr (two_pow_mod_lengths cs.length) rfl rfl]
  by_cases hP : cs.length = 4 ∨ cs.length = 16 ∨ cs.length = 36
  · rw [if_pos hP]
    simp [hP]
  · rw [if_neg hP]
    simp [hP]

/-- The claim C3 as stated is false: the 4-character valid string `"0000"`
is accepted (no `InvalidLength`), and the 64-character valid string of all
zeros is rejected with `InvalidLength`. -/
theorem load_length_claim_counterexample :
    (load ['0', '0', '0', '0'] 0 (2 ^ 64 - 1)).1 = LoadResult.ok ∧
    (load (List.replicate 64 '0') 0 (2 ^ 64 - 1)).1 = LoadResult.invalidLength := by
  constructor <;> decide

/-- Witness for `load_invalid_length_iff`: a 15-character valid string is
rejected with `InvalidLength`. -/
theorem load_invalid_length_iff_witness :
    (load (List.replicate 15 '0') 0 (2 ^ 64 - 1)).1 = LoadResult.invalidLength :=
  (load_invalid_length_iff (List.replicate 15 '0') 0 (2 ^ 64 - 1) (by decide)).mpr (by decide)

lemma loadGo_append_invalid (ds : List Char) (c : Char)
    (hc : ¬ (c = '0' ∨ c = '1' ∨ c = ' ')) :
    ∀ cs : List Char, ∀ m g a : ℕ, (∀ x ∈ cs, x = '0' ∨ x = '1' ∨ x = ' ') →
    loadGo (cs ++ c :: ds) m g a = (LoadResult.invalidChar c, (loadGo cs m g a).2) := by
  intro cs
  induction cs with
  | nil =>
    intro m g a _
    have hbad : c ≠ '1' ∧ c ≠ '0' ∧ c ≠ ' ' := by
      push_neg at hc
      exact ⟨hc.2.1, hc.1, hc.2.2⟩
    simp only [List.nil_append, loadGo, if_pos hbad]
  | cons x cs ih =>
    intro m g a hv
    have hx : x = '0' ∨ x = '1' ∨ x = ' ' := hv x (List.mem_cons_self x cs)
    have hcs : ∀ y ∈ cs, y = '0' ∨ y = '1' ∨ y = ' ' :=
      fun y hy => hv y (List.mem_cons_of_mem x hy)
    have hnot : ¬ (x ≠ '1' ∧ x ≠ '0' ∧ x ≠ ' ') := by
      rcases hx with h | h | h <;> subst h <;> simp
    rw [List.cons_append, loadGo, loadGo, if_neg hnot, if_neg hnot]
    by_cases hsp : x = ' '
    · rw [if_pos hsp, if_pos hsp, ih _ _ _ hcs]
    · rw [if_neg hsp, if_neg hsp, ih _ _ _ hcs]

/-- The claim C10: when the first invalid character sits at position `k`
(after a prefix of valid characters), `load` reports `InvalidChar` and the
caller's grid/actions words hold exactly the updates of the first `k`
characters — the parse is not atomic on error. -/
theorem load_prefix_on_invalid_char (cs ds : List Char) (c : Char) (g a : ℕ)
    (hcs : ∀ x ∈ cs, x = '0' ∨ x = '1' ∨ x = ' ')
    (hc : ¬ (c = '0' ∨ c = '1' ∨ c = ' ')) :
    load (cs ++ c :: ds) g a = (LoadResult.invalidChar c, (load cs g a).2) :=
  loadGo_append_invalid ds c hc cs 1 g a hcs

/-- Witness for `load_prefix_on_invalid_char` on the concrete input
`"0120"`: the write for `'0'` and `'1'` persists, parsing stops at `'2'`. -/
theorem load_prefix_on_invalid_char_witness :
    load ['0', '1', '2', '0'] 5 7 = (LoadResult.invalidChar '2', (load ['0', '1'] 5 7).2) :=
  load_prefix_on_invalid_char ['0', '1'] ['0'] '2' 5 7 (by decide) (by decide)

lemma findAction_zero (N : ℕ) : findAction N 0 = none := by
  rw [findAction]
  refine List.find?_eq_none.mpr (fun i _ => ?_)
  simp

lemma findAction_spec (N a i : ℕ) (h : findAction N a = some i) :
    i < N * N ∧ a.testBit i = true :=
  ⟨List.mem_range.mp (List.mem_of_find?_eq_some h), List.find?_some h⟩

lemma emptyCount_xor (N a i : ℕ) (hi : i < N * N) (hb : a.testBit i = true) :
    emptyCount N (a ^^^ (1 <<< i)) + 1 = emptyCount N a := by
  rw [emptyCount, emptyCount]
  have hset : (Finset.range (N * N)).filter (fun j => (a ^^^ (1 <<< i)).testBit j) =
      ((Finset.range (N * N)).filter (fun j => a.testBit j)).erase i := by
    ext j
    simp only [Finset.mem_filter, Finset.mem_erase, Finset.mem_range, Nat.one_shiftLeft,
      Nat.testBit_xor, Nat.testBit_two_pow]
    by_cases hij : j = i
    · subst hij
      simp [hb]
    · have hd : decide (i = j) = false := by
        simp only [decide_eq_false_iff_not]
        exact fun h => hij h.symm
      simp [hd, hij]
  rw [hset, Finset.card_erase_of_mem (by simp [Finset.mem_filter, Finset.mem_range, hi, hb])]
  have hpos : 0 < ((Finset.range (N * N)).filter (fun j => a.testBit j)).card :=
    Finset.card_pos.mpr ⟨i, by simp [Finset.mem_filter, Finset.mem_range, hi, hb]⟩
  omega

lemma emptyCount_le (N a : ℕ) : emptyCount N a ≤ N * N := by
  refine le_trans (Finset.card_filter_le _ _) ?_
  simp

lemma solveF_isSome (N : ℕ) : ∀ f g a, emptyCount N a < f → (solveF N f g a).isSome = true := by
  intro f
  induction f with
  | zero => intro g a h; omega
  | succ f ih =>
    intro g a h
    simp only [solveF]
    cases hfa : findAction N a with
    | none => simp
    | some i =>
      simp only
      obtain ⟨hi, hb⟩ := findAction_spec N a i hfa
      have hcnt := emptyCount_xor N a i hi hb
      have hlt : emptyCount N (a ^^^ (1 <<< i)) < f := by omega
      have hzero : ∀ e : Option (ℕ × ℕ),
          (if isValid N g (a ^^^ (1 <<< i)) = true then solveF N f g (a ^^^ (1 <<< i))
            else some e).isSome = true := by
        intro e
        by_cases hv0 : isValid N g (a ^^^ (1 <<< i)) = true
        · rw [if_pos hv0]
          exact ih g (a ^^^ (1 <<< i)) hlt
        · rw [if_neg hv0]
          rfl
      by_cases hv1 : isValid N (g ||| (1 <<< i)) (a ^^^ (1 <<< i)) = true
      · rw [if_pos hv1]
        have h1 := ih (g ||| (1 <<< i)) (a ^^^ (1 <<< i)) hlt
        cases hs1 : solveF N f (g ||| (1 <<< i)) (a ^^^ (1 <<< i)) with
        | none =>
          rw [hs1] at h1
          simp at h1
        | some r =>
          cases r with
          | some s => rfl
          | none =>
            show (if isValid N g (a ^^^ (1 <<< i)) = true then solveF N f g (a ^^^ (1 <<< i))
              else some none).isSome = true
            exact hzero none
      · rw [if_neg hv1]
        show (if isValid N g (a ^^^ (1 <<< i)) = true then solveF N f g (a ^^^ (1 <<< i))
          else some none).isSome = true
        exact hzero none

lemma solveF_fuel_irrel (N : ℕ) : ∀ f₁ f₂ g a, emptyCount N a < f₁ → emptyCount N a < f₂ →
    solveF N f₁ g a = solveF N f₂ g a := by
  intro f₁
  induction f₁ with
  | zero => intro f₂ g a h _; omega
  | succ f₁ ih =>
    intro f₂ g a h1 h2
    cases f₂ with
    | zero => omega
    | succ f₂ =>
      simp only [solveF]
      cases hfa : findAction N a with
      | none => rfl
      | some i =>
        simp only
        obtain ⟨hi, hb⟩ := findAction_spec N a i hfa
        have hcnt := emptyCount_xor N a i hi hb
        rw [ih f₂ (g ||| (1 <<< i)) (a ^^^ (1 <<< i)) (by omega) (by omega),
          ih f₂ g (a ^^^ (1 <<< i)) (by omega) (by omega)]

/-- The claim C8: `solve` terminates.  Any fuel larger than the number of
empty cells is enough (the fuel-indexed `solveF` does not run out and its
value no longer depends on the fuel); that number is at most `N * N`; and
each recursive call clears one empty bit, strictly decreasing the count. -/
theorem solve_terminates (N g a f : ℕ) (hf : emptyCount N a < f) :
    (solveF N f g a).isSome = true ∧
    solveF N f g a = solveF N (N * N + 1) g a ∧
    emptyCount N a ≤ N * N ∧
    (∀ i, findAction N a = some i → emptyCount N (a ^^^ (1 <<< i)) < emptyCount N a) := by
  refine ⟨solveF_isSome N f g a hf, ?_, emptyCount_le N a, ?_⟩
  · exact solveF_fuel_irrel N f (N * N + 1) g a hf (by have := emptyCount_le N a; omega)
  · intro i hi
    obtain ⟨h1, h2⟩ := findAction_spec N a i hi
    have := emptyCount_xor N a i h1 h2
    omega

/-- Witness for `solve_terminates` on the empty 4×4 state with fuel 17. -/
theorem solve_terminates_witness :
    (solveF 4 17 0 65535).isSome = true ∧
    solveF 4 17 0 65535 = solveF 4 (4 * 4 + 1) 0 65535 ∧
    emptyCount 4 65535 ≤ 4 * 4 ∧
    (∀ i, findAction 4 65535 = some i →
      emptyCount 4 (65535 ^^^ (1 <<< i)) < emptyCount 4 65535) :=
  solve_terminates 4 0 65535 17 (by decide)

/-- The claim C9: a state with an all-zero empty mask is returned unchanged
by `solve` (the hypothesis `isValid` is part of the claim; the code in fact
returns the state even without it). -/
theorem solve_idempotent_on_solved (N g : ℕ) (_h : isValid N g 0 = true) :
    solve N g 0 = some (g, 0) := by
  rw [solve]
  simp only [solveF, findAction_zero]
  rfl

/-- Witness for `solve_idempotent_on_solved` on a valid complete 4×4 grid
(rows `0011`, `1100`, `0101`, `1010` from bottom to top). -/
theorem solve_idempotent_on_solved_witness :
    solve 4 23100 0 = some (23100, 0) :=
  solve_idempotent_on_solved 4 23100 (by decide)

lemma isValidAux_rows_unique (N g a : ℕ) : ∀ k i rows cols,
    isValidAux N g a k i rows cols = true →
    ∀ q, i ≤ q → q < i + k → getRow N a q = 0 →
      getRow N g q ∉ rows ∧
      ∀ p, i ≤ p → p < q → getRow N a p = 0 → getRow N g p ≠ getRow N g q := by
  intro k
  induction k with
  | zero =>
    intro i rows cols _ q hq1 hq2 _
    omega
  | succ k ih =>
    intro i rows cols hval q hq1 hq2 hqa
    rw [isValidAux] at hval
    by_cases hgate : isBalanced N (getRow N g i) (getRow N a i) = false ∨
        hasTriplets N (getRow N g i) (getRow N a i) = true ∨
        isBalanced N (getCol N g i) (getCol N a i) = false ∨
        hasTriplets N (getCol N g i) (getCol N a i) = true
    · rw [if_pos hgate] at hval
      exact absurd hval (by simp)
    · rw [if_neg hgate] at hval
      by_cases hdup : getRow N a i = 0 ∧ getRow N g i ∈ rows
      · rw [if_pos hdup] at hval
        exact absurd hval (by simp)
      · rw [if_neg hdup] at hval
        by_cases hdupc : getCol N a i = 0 ∧ getCol N g i ∈ cols
        · rw [if_pos hdupc] at hval
          exact absurd hval (by simp)
        · rw [if_neg hdupc] at hval
          rcases Nat.eq_or_lt_of_le hq1 with hq | hq
          · subst hq
            refine ⟨fun hmem => hdup ⟨hqa, hmem⟩, fun p hp1 hp2 _ _ => by omega⟩
          · obtain ⟨hnotin, hpair⟩ :=
              ih (i + 1) _ _ hval q (by omega) (by omega) hqa
            constructor
            · intro hmem
              apply hnotin
              by_cases hra : getRow N a i = 0
              · rw [if_pos hra]
                exact List.mem_append_left _ hmem
              · rwa [if_neg hra]
            · intro p hp1 hp2 hpa
              rcases Nat.eq_or_lt_of_le hp1 with hp | hp
              · subst hp
                intro heq
                apply hnotin
                rw [if_pos hpa]
                exact heq ▸ List.mem_append_right _ (List.mem_singleton_self _)
              · exact hpair p (by omega) hp2 hpa

lemma isValidAux_cols_unique (N g a : ℕ) : ∀ k i rows cols,
    isValidAux N g a k i rows cols = true →
    ∀ q, i ≤ q → q < i + k → getCol N a q = 0 →
      getCol N g q ∉ cols ∧
      ∀ p, i ≤ p → p < q → getCol N a p = 0 → getCol N g p ≠ getCol N g q := by
  intro k
  induction k with
  | zero =>
    intro i rows cols _ q hq1 hq2 _
    omega
  | succ k ih =>
    intro i rows cols hval q hq1 hq2 hqa
    rw [isValidAux] at hval
    by_cases hgate : isBalanced N (getRow N g i) (getRow N a i) = false ∨
        hasTriplets N (getRow N g i) (getRow N a i) = true ∨
        isBalanced N (getCol N g i) (getCol N a i) = false ∨
        hasTriplets N (getCol N g i) (getCol N a i) = true
    · rw [if_pos hgate] at hval
      exact absurd hval (by simp)
    · rw [if_neg hgate] at hval
      by_cases hdup : getRow N a i = 0 ∧ getRow N g i ∈ rows
      · rw [if_pos hdup] at hval
        exact absurd hval (by simp)
      · rw [if_neg hdup] at hval
        by_cases hdupc : getCol N a i = 0 ∧ getCol N g i ∈ cols
        · rw [if_pos hdupc] at hval
          exact absurd hval (by simp)
        · rw [if_neg hdupc] at hval
          rcases Nat.eq_or_lt_of_le hq1 with hq | hq
          · subst hq
            refine ⟨fun hmem => hdupc ⟨hqa, hmem⟩, fun p hp1 hp2 _ _ => by omega⟩
          · obtain ⟨hnotin, hpair⟩ :=
              ih (i + 1) _ _ hval q (by omega) (by omega) hqa
            constructor
            · intro hmem
              apply hnotin
              by_cases hca : getCol N a i = 0
              · rw [if_pos hca]
                exact List.mem_append_left _ hmem
              · rwa [if_neg hca]
            · intro p hp1 hp2 hpa
              rcases Nat.eq_or_lt_of_le hp1 with hp | hp
              · subst hp
                intro heq
                apply hnotin
                rw [if_pos hpa]
                exact heq ▸ List.mem_append_right _ (List.mem_singleton_self _)
              · exact hpair p (by omega) hp2 hpa

/-- The claim C7: `isValid` rejects a state with two equal fully filled rows
(respectively columns); slices with an empty cell are exempt, witnessed by
the fully empty 4×4 state, whose four (equal, all-empty) rows pass. -/
theorem isValid_unique_filled (N g a p q : ℕ) (hpq : p < q) (hq : q < N) :
    (getRow N a p = 0 → getRow N a q = 0 → getRow N g p = getRow N g q →
      isValid N g a = false) ∧
    (getCol N a p = 0 → getCol N a q = 0 → getCol N g p = getCol N g q →
      isValid N g a = false) ∧
    (isValid 4 0 65535 = true ∧ getRow 4 65535 0 ≠ 0 ∧ getRow 4 0 0 = getRow 4 0 1) := by
  refine ⟨?_, ?_, by decide, by decide, by decide⟩
  · intro hap haq heq
    by_contra hfalse
    rw [Bool.not_eq_false] at hfalse
    obtain ⟨_, hpair⟩ :=
      isValidAux_rows_unique N g a N 0 [] [] hfalse q (by omega) (by omega) haq
    exact hpair p (by omega) hpq hap heq
  · intro hap haq heq
    by_contra hfalse
    rw [Bool.not_eq_false] at hfalse
    obtain ⟨_, hpair⟩ :=
      isValidAux_cols_unique N g a N 0 [] [] hfalse q (by omega) (by omega) haq
    exact hpair p (by omega) hpq hap heq

/-- Witness for `isValid_unique_filled`: the 4×4 state whose bottom two rows
are both `0011` and fully filled is rejected. -/
theorem isValid_unique_filled_witness : isValid 4 204 65280 = false :=
  (isValid_unique_filled 4 204 65280 0 1 (by decide) (by decide)).1
    (by decide) (by decide) (by decide)

lemma getRow_zero (N i : ℕ) : getRow N 0 i = 0 := by
  simp [getRow]

lemma getColAux_zero (N : ℕ) : ∀ n, getColAux N n 0 0 = 0 := by
  intro n
  induction n with
  | zero => rfl
  | succ n ih => rw [getColAux]; simpa using ih

lemma getCol_zero (N i : ℕ) : getCol N 0 i = 0 := by
  rw [getCol, Nat.zero_shiftRight]
  exact getColAux_zero N N

lemma isValidAux_balanced (N g a : ℕ) : ∀ k i rows cols,
    isValidAux N g a k i rows cols = true →
    ∀ q, i ≤ q → q < i + k →
      isBalanced N (getRow N g q) (getRow N a q) = true ∧
      isBalanced N (getCol N g q) (getCol N a q) = true := by
  intro k
  induction k with
  | zero =>
    intro i rows cols _ q hq1 hq2
    omega
  | succ k ih =>
    intro i rows cols hval q hq1 hq2
    rw [isValidAux] at hval
    by_cases hgate : isBalanced N (getRow N g i) (getRow N a i) = false ∨
        hasTriplets N (getRow N g i) (getRow N a i) = true ∨
        isBalanced N (getCol N g i) (getCol N a i) = false ∨
        hasTriplets N (getCol N g i) (getCol N a i) = true
    · rw [if_pos hgate] at hval
      exact absurd hval (by simp)
    · rw [if_neg hgate] at hval
      push_neg at hgate
      obtain ⟨hbr, _, hbc, _⟩ := hgate
      by_cases hdup : getRow N a i = 0 ∧ getRow N g i ∈ rows
      · rw [if_pos hdup] at hval
        exact absurd hval (by simp)
      · rw [if_neg hdup] at hval
        by_cases hdupc : getCol N a i = 0 ∧ getCol N g i ∈ cols
        · rw [if_pos hdupc] at hval
          exact absurd hval (by simp)
        · rw [if_neg hdupc] at hval
          rcases Nat.eq_or_lt_of_le hq1 with hq | hq
          · subst hq
            simp only [← Bool.not_eq_false]
            exact ⟨hbr, hbc⟩
          · exact ih (i + 1) _ _ hval q (by omega) (by omega)

lemma testBit_xor_clear (a i j : ℕ) (hb : a.testBit i = true)
    (h : (a ^^^ (1 <<< i)).testBit j = true) : a.testBit j = true := by
  by_cases hij : i = j
  · subst hij
    exact hb
  · rw [Nat.one_shiftLeft, Nat.testBit_xor, Nat.testBit_two_pow] at h
    simpa [hij] using h

lemma solveF_characterize (N : ℕ) : ∀ f g a r, solveF N f g a = some (some r) →
    (∀ j, r.2.testBit j = true → a.testBit j = true) ∧
    findAction N r.2 = none ∧
    (r = (g, a) ∨ isValid N r.1 r.2 = true) := by
  intro f
  induction f with
  | zero =>
    intro g a r h
    simp [solveF] at h
  | succ f ih =>
    intro g a r h
    simp only [solveF] at h
    cases hfa : findAction N a with
    | none =>
      rw [hfa] at h
      obtain rfl : (g, a) = r := by simpa using h
      exact ⟨fun j hj => hj, hfa, Or.inl rfl⟩
    | some i =>
      rw [hfa] at h
      simp only at h
      obtain ⟨hi, hb⟩ := findAction_spec N a i hfa
      have hstep : ∀ g₀, solveF N f g₀ (a ^^^ (1 <<< i)) = some (some r) →
          isValid N g₀ (a ^^^ (1 <<< i)) = true →
          (∀ j, r.2.testBit j = true → a.testBit j = true) ∧
          findAction N r.2 = none ∧
          (r = (g, a) ∨ isValid N r.1 r.2 = true) := by
        intro g₀ hrec hval
        obtain ⟨hbits, hfind, hor⟩ := ih g₀ (a ^^^ (1 <<< i)) r hrec
        refine ⟨fun j hj => testBit_xor_clear a i j hb (hbits j hj), hfind, Or.inr ?_⟩
        rcases hor with heq | hv2
        · rw [heq]
          exact hval
        · exact hv2
      by_cases hv1 : isValid N (g ||| (1 <<< i)) (a ^^^ (1 <<< i)) = true
      · rw [if_pos hv1] at h
        cases hs1 : solveF N f (g ||| (1 <<< i)) (a ^^^ (1 <<< i)) with
        | none =>
          rw [hs1] at h
          simp at h
        | some r1 =>
          rw [hs1] at h
          cases r1 with
          | some s =>
            obtain rfl : s = r := by simpa using h
            exact hstep (g ||| (1 <<< i)) hs1 hv1
          | none =>
            change (if isValid N g (a ^^^ (1 <<< i)) = true then
              solveF N f g (a ^^^ (1 <<< i)) else some none) = some (some r) at h
            by_cases hv0 : isValid N g (a ^^^ (1 <<< i)) = true
            · rw [if_pos hv0] at h
              exact hstep g h hv0
            · rw [if_neg hv0] at h
              simp at h
      · rw [if_neg hv1] at h
        change (if isValid N g (a ^^^ (1 <<< i)) = true then
          solveF N f g (a ^^^ (1 <<< i)) else some none) = some (some r) at h
        by_cases hv0 : isValid N g (a ^^^ (1 <<< i)) = true
        · rw [if_pos hv0] at h
          exact hstep g h hv0
        · rw [if_neg hv0] at h
          simp at h

lemma countP_split (N v : ℕ) :
    (List.range N).countP (fun k => v.testBit k) +
      (List.range N).countP (fun k => !v.testBit k) = N := by
  have h := List.length_eq_countP_add_countP (p := fun k => v.testBit k) (List.range N)
  simpa using h.symm

/-- The amended claim C2: a state returned by `solve` from an initial state
whose empty mask fits in the grid (`a < 2 ^ (N * N)`) and which passes
`isValid` has an all-zero empty mask, and each of its rows and columns holds
exactly `N / 2` one-bits and `N / 2` zero-bits. -/
theorem solve_balanced (N g a g' a' : ℕ) (hw : a < 2 ^ (N * N))
    (hv : isValid N g a = true) (hs : solve N g a = some (g', a')) :
    a' = 0 ∧ ∀ i < N,
      (List.range N).countP (fun k => (getRow N g' i).testBit k) = N / 2 ∧
      (List.range N).countP (fun k => !(getRow N g' i).testBit k) = N / 2 ∧
      (List.range N).countP (fun k => (getCol N g' i).testBit k) = N / 2 ∧
      (List.range N).countP (fun k => !(getCol N g' i).testBit k) = N / 2 := by
  rw [solve] at hs
  have hfuel : emptyCount N a < N * N + 1 := by
    have := emptyCount_le N a
    omega
  have hsome := solveF_isSome N (N * N + 1) g a hfuel
  cases hF : solveF N (N * N + 1) g a with
  | none =>
    rw [hF] at hsome
    simp at hsome
  | some x =>
    rw [hF] at hs
    have hx : x = some (g', a') := hs
    subst hx
    obtain ⟨hbits, hfind, hor⟩ := solveF_characterize N (N * N + 1) g a (g', a') hF
    have ha' : a' = 0 := by
      refine Nat.eq_of_testBit_eq (fun j => ?_)
      rw [Nat.zero_testBit]
      by_cases hj : j < N * N
      · by_contra hbit
        rw [Bool.not_eq_false] at hbit
        have hnone := List.find?_eq_none.mp hfind j (List.mem_range.mpr hj)
        simp [hbit] at hnone
      · by_contra hbit
        rw [Bool.not_eq_false] at hbit
        have haj := hbits j hbit
        have hlow : a < 2 ^ j :=
          lt_of_lt_of_le hw (Nat.pow_le_pow_right (by norm_num) (by omega))
        rw [Nat.testBit_lt_two_pow hlow] at haj
        exact absurd haj (by simp)
    have hval' : isValid N g' 0 = true := by
      rcases hor with heq | hv2
      · rw [Prod.mk.injEq] at heq
        have ha0 : a = 0 := by omega
        rw [heq.1, ← ha0]
        exact hv
      · rwa [ha'] at hv2
    refine ⟨ha', fun i hi => ?_⟩
    have hbal := isValidAux_balanced N g' 0 N 0 [] [] hval' i (by omega) (by omega)
    rw [getRow_zero, getCol_zero] at hbal
    obtain ⟨hbr, hbc⟩ := hbal
    rw [isBalanced_iff_counts] at hbr hbc
    simp only [Nat.zero_testBit, Bool.not_false, Bool.true_and] at hbr hbc
    have hs1 := countP_split N (getRow N g' i)
    have hs2 := countP_split N (getCol N g' i)
    refine ⟨by omega, by omega, by omega, by omega⟩

/-- The claim C2 as stated is false: `solve` returns the fully filled
all-zero 4×4 state unchanged (the leaf of the search does not re-validate),
and its rows contain zero one-bits rather than `4 / 2`. -/
theorem solve_balanced_counterexample :
    solve 4 0 0 = some (0, 0) ∧
    (List.range 4).countP (fun k => (getRow 4 0 0).testBit k) ≠ 4 / 2 := by
  constructor <;> decide

/-- Witness for `solve_balanced` on a valid complete 4×4 grid. -/
theorem solve_balanced_witness :
    (0 : ℕ) = 0 ∧ ∀ i < 4,
      (List.range 4).countP (fun k => (getRow 4 23100 i).testBit k) = 4 / 2 ∧
      (List.range 4).countP (fun k => !(getRow 4 23100 i).testBit k) = 4 / 2 ∧
      (List.range 4).countP (fun k => (getCol 4 23100 i).testBit k) = 4 / 2 ∧
      (List.range 4).countP (fun k => !(getCol 4 23100 i).testBit k) = 4 / 2 :=
  solve_balanced 4 23100 0 23100 0 (by decide) (by decide) (by decide)

lemma land_eq_zero_iff (g a : ℕ) :
    g &&& a = 0 ↔ ∀ j, g.testBit j = false ∨ a.testBit j = false := by
  constructor
  · intro h j
    have hbit := congrArg (fun x => Nat.testBit x j) h
    simp only [Nat.testBit_and, Nat.zero_testBit] at hbit
    cases hg : g.testBit j with
    | false => exact Or.inl rfl
    | true =>
      rw [hg] at hbit
      exact Or.inr (by simpa using hbit)
  · intro h
    refine Nat.eq_of_testBit_eq (fun j => ?_)
    rw [Nat.testBit_and, Nat.zero_testBit]
    rcases h j with hh | hh <;> simp [hh]

lemma clearBit_of_not_testBit (g i : ℕ) (h : g.testBit i = false) : clearBit g i = g := by
  rw [clearBit, if_neg (by simp [h])]

lemma disjoint_branches (g a i : ℕ) (hd : g &&& a = 0) (hb : a.testBit i = true) :
    (g ||| (1 <<< i)) &&& (a ^^^ (1 <<< i)) = 0 ∧ g &&& (a ^^^ (1 <<< i)) = 0 := by
  have h := (land_eq_zero_iff g a).mp hd
  constructor <;> refine (land_eq_zero_iff _ _).mpr (fun j => ?_)
  · by_cases hij : i = j
    · subst hij
      refine Or.inr ?_
      simp [Nat.one_shiftLeft, Nat.testBit_xor, Nat.testBit_two_pow, hb]
    · rcases h j with hh | hh
      · refine Or.inl ?_
        simp [Nat.one_shiftLeft, Nat.testBit_or, Nat.testBit_two_pow, hh, hij]
      · refine Or.inr ?_
        simp [Nat.one_shiftLeft, Nat.testBit_xor, Nat.testBit_two_pow, hh, hij]
  · by_cases hij : i = j
    · subst hij
      refine Or.inr ?_
      simp [Nat.one_shiftLeft, Nat.testBit_xor, Nat.testBit_two_pow, hb]
    · rcases h j with hh | hh
      · exact Or.inl hh
      · refine Or.inr ?_
        simp [Nat.one_shiftLeft, Nat.testBit_xor, Nat.testBit_two_pow, hh, hij]

lemma solveAmendedF_eq (N : ℕ) : ∀ f g a, g &&& a = 0 →
    solveAmendedF N f g a = solveF N f g a := by
  intro f
  induction f with
  | zero => intro g a _; rfl
  | succ f ih =>
    intro g a hd
    simp only [solveAmendedF, solveF]
    cases hfa : findAction N a with
    | none => rfl
    | some i =>
      simp only
      obtain ⟨hi, hb⟩ := findAction_spec N a i hfa
      obtain ⟨hd1, hd0⟩ := disjoint_branches g a i hd hb
      have hgi : g.testBit i = false := by
        rcases (land_eq_zero_iff g a).mp hd i with hh | hh
        · exact hh
        · rw [hb] at hh
          exact absurd hh (by simp)
      rw [clearBit_of_not_testBit g i hgi,
        ih (g ||| (1 <<< i)) (a ^^^ (1 <<< i)) hd1, ih g (a ^^^ (1 <<< i)) hd0]

/-- The amended claim C1: on a state whose value word is zero on every empty
cell (`g &&& a = 0`, the data-model invariant — empty cells are never read
as values), `solve` implements the reference algorithm that picks the lowest
empty linear index, tries candidate value 1 first and then 0 (each candidate
clearing the empty bit and setting the value bit accordingly, recursing only
if `isValid` holds), and propagates the first solution found under this
fixed branch order, abandoning the other candidate and all later indices. -/
theorem solve_branch_order (N g a : ℕ) (hd : g &&& a = 0) :
    solveAmended N g a = solve N g a := by
  rw [solveAmended, solve, solveAmendedF_eq N (N * N + 1) g a hd]

/-- The claim C1 as stated is false: on the 4×4 state with bottom rows
`0011` and `1100` filled and the top two rows empty, the claim's reference
solver (candidate 0 before candidate 1) returns a different solution from
the code, which tries candidate 1 first. -/
theorem solve_branch_order_counterexample :
    solveClaim 4 60 65280 ≠ solve 4 60 65280 := by decide

/-- Witness for `solve_branch_order` on the same concrete state. -/
theorem solve_branch_order_witness :
    solveAmended 4 60 65280 = solve 4 60 65280 :=
  solve_branch_order 4 60 65280 (by decide)

end Takuzu
